import Mathlib

/-!
Verification development for the nested-content editing utilities of the
portfolio/admin repository.

The repository edits a JSON-shaped content tree (site copy) through a small
set of tree-walking utilities:

* `updateNestedState` (src/unnamed/part_006, lines 154-188): immutable
  path-based writer: deep-clones the root, walks the path creating missing
  intermediate containers, assigns a scalar string at the final segment.
* `handleDeleteItem` (src/unnamed/part_005, lines 142-185): in-memory
  path-based deleter: walks to the parent container, splices an array index
  or deletes an object key.
* `handleDeleteItem` (src/unnamed/part_004, lines 92-130): a near-duplicate
  deleter that rejects paths of length < 2 and aborts on null children.
* the services-list rewrite (src/src/admin/AdminDashboard.tsx, lines
  236-297): deletes a service by filtering out one index of the list.
* the contact-form gate (src/src/App.tsx): email regex, message length
  bound, 60 s rate limit.

Modelling notes (the embedding's boundary, stated once here):

* Values are the JSON value space that these trees actually live in after
  `JSON.parse(JSON.stringify(...))`: null, strings, objects (ordered
  string-keyed association lists without duplicate keys, as JS objects),
  and arrays.  The deep clone itself is the identity on this space.
* Property access follows JavaScript own-property semantics on that space:
  an object accepts both string keys and numeric keys (a numeric key is
  coerced to its decimal string); an array accepts numeric indices and
  canonical numeric strings (JS array index coercion); a string accepts
  in-range numeric indices / canonical numeric index strings, yielding its
  one-character substrings (JS primitive string indexing).  Built-in
  properties that are not own data properties of the JSON data (`length`,
  prototype methods such as `toString`) are modelled as absent, and JS
  expando properties on arrays (a non-index string key assigned on an
  array, which `JSON.stringify` drops) are modelled as a failed write.
* The repository is compiled as ES modules, hence strict mode: assigning a
  property on a primitive (`"hi".b = {}`) throws a TypeError.  A thrown
  exception is modelled as the result `none`; JS array holes created by
  out-of-bounds index assignment or by `delete arr[i]` read back as
  `undefined` and serialize as `null`, and are modelled as `null`.
* The two dashboard deleters traverse `newState.en`; the functions here are
  stated directly on that content tree (the `en` subtree), which is the
  tree all the claims quantify over.
* JS `Date.now()` timestamps are modelled as naturals; `now - last` uses
  truncated subtraction, which agrees with the JS comparison
  `now - last < 60000` for the reachable case `last ≤ now` and still
  classifies a clock-skewed `now < last` as rate-limited, as JS does.
-/

namespace PortfolioSpec

/-- JSON-shaped values of the content tree: scalars are strings, containers
are objects (ordered key/value lists) and arrays; `null` covers both JSON
null and serialized array holes. -/
inductive Json where
  | null : Json
  | str : String → Json
  | obj : List (String × Json) → Json
  | arr : List Json → Json

/-- One path segment, as produced by the recursive field renderer: a string
key or a numeric array index (the TS type is `(string | number)[]`). -/
inductive Seg where
  | key : String → Seg
  | idx : Nat → Seg
deriving DecidableEq, Repr

/-- True on the container values (JS `typeof x === 'object' && x !== null`:
objects and arrays). -/
def isContainer : Json → Bool
  | Json.obj _ => true
  | Json.arr _ => true
  | _ => false

/-- True on `null` (the JS check `x === null` / `x === undefined || x === null`
on a present value). -/
def isNull : Json → Bool
  | Json.null => true
  | _ => false

/-- JS `typeof seg === 'number'` on a path segment. -/
def isNumSeg : Seg → Bool
  | Seg.idx _ => true
  | Seg.key _ => false

/-- Value of a list of decimal digit characters. -/
def digitsVal (cs : List Char) : Nat :=
  cs.foldl (fun n c => n * 10 + (c.toNat - '0'.toNat)) 0

/-- Canonical numeric strings: JS coerces a string property key on an array
(or string) to an index exactly when it is the canonical decimal numeral of
the index (digits only, no leading zero except "0" itself; the 2^32-1 upper
bound of JS array indices is beyond the JSON trees considered here). -/
def canonKey? (s : String) : Option Nat :=
  match s.data with
  | [] => none
  | c :: cs =>
    if (c :: cs).all Char.isDigit && (c ≠ '0' || cs.isEmpty) then
      some (digitsVal (c :: cs))
    else none

/-- Association-list lookup for JS object property read (own properties,
first match; JS objects carry at most one entry per key). -/
def alookup (s : String) : List (String × Json) → Option Json
  | [] => none
  | p :: rest => if p.1 = s then some p.2 else alookup s rest

/-- JS object property write: replace the value in place if the key exists
(keeping key order), otherwise append the new key at the end. -/
def aset (s : String) (v : Json) (f : List (String × Json)) : List (String × Json) :=
  if (alookup s f).isSome then f.map (fun p => if p.1 = s then (s, v) else p)
  else f ++ [(s, v)]

/-- JS array index write `arr[n] = v`: replace in bounds; out of bounds the
array is extended, the skipped slots becoming holes (serialized `null`). -/
def padSet : List Json → Nat → Json → List Json
  | [], 0, v => [v]
  | [], n + 1, v => Json.null :: padSet [] n v
  | _ :: es, 0, v => v :: es
  | e :: es, n + 1, v => e :: padSet es n v

/-- JS property read `cur[seg]` on the JSON value space (`none` models
`undefined`): objects by key (numeric keys coerced to decimal strings),
arrays by index (canonical numeric strings coerced), strings by in-range
index yielding one-character strings. -/
def getProp : Json → Seg → Option Json
  | Json.obj f, Seg.key s => alookup s f
  | Json.obj f, Seg.idx n => alookup (Nat.repr n) f
  | Json.arr es, Seg.idx n => es[n]?
  | Json.arr es, Seg.key s =>
    match canonKey? s with
    | some n => es[n]?
    | none => none
  | Json.str s, Seg.idx n => (s.data[n]?).map (fun c => Json.str (String.mk [c]))
  | Json.str s, Seg.key k =>
    match canonKey? k with
    | some n => (s.data[n]?).map (fun c => Json.str (String.mk [c]))
    | none => none
  | _, _ => none

/-- JS property write `cur[seg] = v` on the JSON value space; `none` models
a strict-mode TypeError (write on a primitive) or an array expando write
that the JSON model excludes. -/
def setProp : Json → Seg → Json → Option Json
  | Json.obj f, Seg.key s, v => some (Json.obj (aset s v f))
  | Json.obj f, Seg.idx n, v => some (Json.obj (aset (Nat.repr n) v f))
  | Json.arr es, Seg.idx n, v => some (Json.arr (padSet es n v))
  | Json.arr es, Seg.key s, v =>
    match canonKey? s with
    | some n => some (Json.arr (padSet es n v))
    | none => none
  | _, _, _ => none

/-- Pure path lookup in a tree: chained JS property reads.  This is the
reader used to state the round-trip and not-found properties. -/
def resolve : Json → List Seg → Option Json
  | t, [] => some t
  | t, s :: rest =>
    match getProp t s with
    | some c => resolve c rest
    | none => none

/-- Fresh container created for a missing intermediate segment: an empty
array when the NEXT path segment is numeric, otherwise an empty object
(part_006 line 165: `nextKeyIsNumber ? [] : {}`). -/
def emptyFor : Seg → Json
  | Seg.idx _ => Json.arr []
  | Seg.key _ => Json.obj []

/-- Outcome of the body of `updateNestedState` after the clone: the walk
either finishes with a new tree, returns the original (`prevState`) because
the final parent is not a container, or throws. -/
inductive WriteOut where
  | threw : WriteOut
  | aborted : WriteOut
  | ok : Json → WriteOut

/-- Rebuild the parent around the walk's result in the child: the JS loop
mutates the child in place inside the cloned tree, which on the spine of
the path is exactly replacing the child slot by the recursive result; a
non-`ok` outcome propagates (an abort discards the clone, a throw unwinds). -/
def reSet (cur : Json) (seg : Seg) : WriteOut → WriteOut
  | WriteOut.ok c' =>
    match setProp cur seg c' with
    | some t => WriteOut.ok t
    | none => WriteOut.threw
  | r => r

/-- The missing-or-null intermediate case of the walk (part_006 lines
163-166): JS first executes `current[key] = nextKeyIsNumber ? [] : {}`,
which throws on a primitive `current` (strict mode) and on the excluded
array-expando write; if that write succeeds the walk continues in the fresh
container (`k` is the walk's outcome there) and the parent is rebuilt. -/
def createStep (cur : Json) (seg nxt : Seg) (k : WriteOut) : WriteOut :=
  if isContainer cur then
    match setProp cur seg (emptyFor nxt) with
    | some _ => reSet cur seg k
    | none => WriteOut.threw
  else WriteOut.threw

/-- The loop plus final assignment of `updateNestedState` (part_006 lines
159-187), written as structural recursion over the path: for a non-final
segment, a missing or null child is replaced by a fresh container chosen by
the next segment (`createStep`), otherwise the walk enters the existing
child; at the final segment the value is assigned if the parent is a
container and the walk aborts otherwise (lines 180-185).  The in-place
array padding loop of lines 168-175 is unreachable (a missing index was
already assigned one line above, extending the array), so it has no
counterpart here. -/
def goSet : Json → List Seg → String → WriteOut
  | _, [], _ => WriteOut.aborted
  | cur, [last], v =>
    if isContainer cur then
      match setProp cur last (Json.str v) with
      | some t => WriteOut.ok t
      | none => WriteOut.threw
    else WriteOut.aborted
  | cur, seg :: nxt :: rest, v =>
    match getProp cur seg with
    | some c =>
      if isNull c then createStep cur seg nxt (goSet (emptyFor nxt) (nxt :: rest) v)
      else reSet cur seg (goSet c (nxt :: rest) v)
    | none => createStep cur seg nxt (goSet (emptyFor nxt) (nxt :: rest) v)

/-- `updateNestedState` (part_006 lines 154-188).  `none` models a thrown
exception.  On `some (fresh, t')`: `fresh = true` means the function
returned `newState`, the deep clone — a freshly allocated root,
referentially distinct from the input; `fresh = false` means it returned
`prevState`, the input root itself (empty path, line 156, or the final
safeguard, line 184). -/
def updateNestedState (t : Json) (path : List Seg) (v : String) : Option (Bool × Json) :=
  match path with
  | [] => some (false, t)
  | p0 :: ps =>
    match goSet t (p0 :: ps) v with
    | WriteOut.ok t' => some (true, t')
    | WriteOut.aborted => some (false, t)
    | WriteOut.threw => none

/-- The final deletion step of both dashboard deleters (part_005 lines
163-181, part_004 lines 108-127, identical code): on an array parent with a
numeric in-bounds index, splice the index out; on an object parent with a
string key that is present, delete the key; a canonical numeric string key
on an array passes the JS `key in arr` test and `delete arr[key]` leaves a
hole (modelled `null`); everything else returns the original. -/
def delFinal : Json → Seg → Option Json
  | Json.arr es, Seg.idx n =>
    if n < es.length then some (Json.arr (es.take n ++ es.drop (n + 1))) else none
  | Json.obj f, Seg.key s =>
    if (alookup s f).isSome then some (Json.obj (f.filter (fun p => p.1 ≠ s))) else none
  | Json.arr es, Seg.key s =>
    match canonKey? s with
    | some n => if n < es.length then some (Json.arr (es.set n Json.null)) else none
    | none => none
  | _, _ => none

/-- Rebuild the parent around the deleter's result in the child, mirroring
the in-place mutation of the cloned tree on the path's spine; a not-found
outcome (`none`) propagates, making the deleter return the original. -/
def reDel (cur : Json) (seg : Seg) : Option Json → Option Json
  | some c' => setProp cur seg c'
  | none => none

/-- The traversal of part_005's `handleDeleteItem` (lines 149-159 plus the
final step): each non-final step requires the current node to be a
non-null object/array with the child defined, else the original state is
returned (`none` here); the parent is rebuilt around the recursive result. -/
def goDel : Json → List Seg → Option Json
  | _, [] => none
  | cur, [last] => delFinal cur last
  | cur, seg :: nxt :: rest =>
    if isContainer cur then
      match getProp cur seg with
      | some c => reDel cur seg (goDel c (nxt :: rest))
      | none => none
    else none

/-- `handleDeleteItem` of part_005 (lines 142-185), on the content tree it
traverses (`newState.en`).  `false` in the first component means the
original tree object was returned (invalid path, not-found path, or
non-deletable target); `true` means the fresh clone with the deletion
applied was returned. -/
def handleDeleteItem (t : Json) (path : List Seg) : Bool × Json :=
  match path with
  | [] => (false, t)
  | p0 :: ps =>
    match goDel t (p0 :: ps) with
    | some t' => (true, t')
    | none => (false, t)

/-- The traversal of part_004's `handleDeleteItem` (lines 100-107 plus the
final step): each non-final step requires the child to be defined and
non-null (the current node's type is not checked, so the walk can step
through string characters, where it can only fail); the parent is rebuilt
around the recursive result. -/
def goDel4 : Json → List Seg → Option Json
  | _, [] => none
  | cur, [last] => delFinal cur last
  | cur, seg :: nxt :: rest =>
    match getProp cur seg with
    | some c =>
      if isNull c then none
      else reDel cur seg (goDel4 c (nxt :: rest))
    | none => none

/-- `handleDeleteItem` of part_004 (lines 92-130): identical to the part_005
variant except that paths of length < 2 are rejected up front (line 93)
and a null child aborts the walk. -/
def handleDeleteItem4 (t : Json) (path : List Seg) : Bool × Json :=
  if path.length < 2 then (false, t)
  else
    match goDel4 t path with
    | some t' => (true, t')
    | none => (false, t)

/-- The services-list rewrite of AdminDashboard.tsx (line 259):
`currentServicesList.filter((_, index) => index !== serviceIndexToDelete)`
— keep every element whose position differs from the deleted index. -/
def servicesListDelete (es : List Json) (i : Nat) : List Json :=
  (es.enum.filter (fun p => p.1 ≠ i)).map (fun p => p.2)

/-- The nested value that the writer's auto-vivification builds below the
first missing slot: each segment contributes an object layer for a string
key and an array layer (with leading holes for a positive index) for a
numeric index, with the scalar at the bottom. -/
def chainV : List Seg → String → Json
  | [], v => Json.str v
  | Seg.key s :: rest, v => Json.obj [(s, chainV rest v)]
  | Seg.idx n :: rest, v => Json.arr (List.replicate n Json.null ++ [chainV rest v])

/-- JS property name under which a segment lands when the parent is an
object: a string key itself, a numeric index coerced to its decimal string. -/
def keyOf : Seg → String
  | Seg.key s => s
  | Seg.idx n => Nat.repr n

/-- The character class `\s` of the contact-form email regex, on the ASCII
whitespace the JS class contains (App.tsx line 22). -/
def jsWs (c : Char) : Bool :=
  c = ' ' || c = '\t' || c = '\n' || c = '\r' || c = '\x0b' || c = '\x0c'

/-- `validateEmail` (App.tsx lines 21-24): the regex
`^[^\s@]+@[^\s@]+\.[^\s@]+$` matches exactly the strings with a single `@`,
a nonempty whitespace-free local part, and a whitespace-free domain part
containing a dot with at least one character on each side. -/
def validateEmail (email : String) : Bool :=
  let cs := email.data
  if cs.count '@' = 1 then
    let A := cs.takeWhile (fun c => c ≠ '@')
    let R := (cs.dropWhile (fun c => c ≠ '@')).drop 1
    (!A.isEmpty) && A.all (fun c => !jsWs c) && R.all (fun c => !jsWs c) &&
      ((R.drop 1).dropLast.contains '.')
  else false

/-- `validateMessage` (App.tsx lines 26-28): message length between 10 and
1000 characters inclusive. -/
def validateMessage (m : String) : Bool :=
  decide (10 ≤ m.length) && decide (m.length ≤ 1000)

/-- The guard sequence of `handleSubmit` (App.tsx lines 136-160): rate limit
first (less than 60000 ms since the last accepted submission blocks), then
email validation, then message validation; only when all pass is
`lastSubmissionTime` updated and the send attempted.  Returns (send
attempted?, new `lastSubmissionTime`). -/
def handleSubmit (now last : Nat) (email message : String) : Bool × Nat :=
  if now - last < 60000 then (false, last)
  else if !validateEmail email then (false, last)
  else if !validateMessage message then (false, last)
  else (true, now)

/-! Association-list and array-write lemmas. -/

theorem alookup_none_notmem {s : String} :
    ∀ f : List (String × Json), alookup s f = none → ∀ p ∈ f, p.1 ≠ s := by
  intro f
  induction f with
  | nil => intro _ p hp; exact absurd hp (List.not_mem_nil p)
  | cons q rest ih =>
    intro h p hp hps
    rw [alookup] at h
    by_cases hq : q.1 = s
    · rw [if_pos hq] at h; exact Option.noConfusion h
    · rw [if_neg hq] at h
      rcases List.mem_cons.mp hp with rfl | hp'
      · exact hq hps
      · exact ih h p hp' hps

theorem alookup_append_of_none {s : String} (g : List (String × Json)) :
    ∀ f : List (String × Json), alookup s f = none → alookup s (f ++ g) = alookup s g := by
  intro f
  induction f with
  | nil => intro _; rfl
  | cons q rest ih =>
    intro h
    rw [alookup] at h
    by_cases hq : q.1 = s
    · rw [if_pos hq] at h; exact Option.noConfusion h
    · rw [if_neg hq] at h
      rw [List.cons_append, alookup, if_neg hq]
      exact ih h

theorem alookup_map_set (s : String) (v : Json) :
    ∀ f : List (String × Json), (alookup s f).isSome = true →
      alookup s (f.map (fun p => if p.1 = s then (s, v) else p)) = some v := by
  intro f
  induction f with
  | nil => intro h; rw [alookup] at h; exact absurd h (by simp)
  | cons q rest ih =>
    intro h
    by_cases hq : q.1 = s
    · simp [alookup, hq]
    · rw [alookup, if_neg hq] at h
      simp only [List.map_cons, if_neg hq]
      rw [alookup, if_neg hq]
      exact ih h

theorem alookup_map_set_ne {k s : String} (hk : k ≠ s) (v : Json) :
    ∀ f : List (String × Json),
      alookup k (f.map (fun p => if p.1 = s then (s, v) else p)) = alookup k f := by
  intro f
  induction f with
  | nil => rfl
  | cons q rest ih =>
    by_cases hq : q.1 = s
    · have hqk : q.1 ≠ k := by rw [hq]; exact fun e => hk e.symm
      have hsk : (s : String) ≠ k := fun e => hk e.symm
      simp only [List.map_cons, if_pos hq]
      rw [alookup, alookup, if_neg (fun e => hsk e), if_neg (fun e => hqk e)]
      exact ih
    · simp only [List.map_cons, if_neg hq]
      rw [alookup, alookup]
      by_cases hqk : q.1 = k
      · rw [if_pos hqk, if_pos hqk]
      · rw [if_neg hqk, if_neg hqk]
        exact ih

theorem alookup_aset_self (s : String) (v : Json) (f : List (String × Json)) :
    alookup s (aset s v f) = some v := by
  rw [aset]
  by_cases h : (alookup s f).isSome
  · rw [if_pos h]
    exact alookup_map_set s v f h
  · rw [if_neg h]
    rw [alookup_append_of_none _ f (Option.not_isSome_iff_eq_none.mp h)]
    rw [alookup, if_pos rfl]

theorem alookup_aset_ne {k s : String} (hk : k ≠ s) (v : Json) (f : List (String × Json)) :
    alookup k (aset s v f) = alookup k f := by
  rw [aset]
  by_cases h : (alookup s f).isSome
  · rw [if_pos h]
    exact alookup_map_set_ne hk v f
  · rw [if_neg h]
    have hnone := Option.not_isSome_iff_eq_none.mp h
    induction f with
    | nil => rw [alookup]; rw [List.nil_append, alookup, if_neg (fun e : s = k => hk e.symm)]; rfl
    | cons q rest ih =>
      rw [alookup] at hnone
      by_cases hq : q.1 = s
      · rw [if_pos hq] at hnone; exact Option.noConfusion hnone
      · rw [if_neg hq] at hnone
        rw [List.cons_append, alookup, alookup]
        by_cases hqk : q.1 = k
        · rw [if_pos hqk, if_pos hqk]
        · rw [if_neg hqk, if_neg hqk]
          exact ih (by simp [hnone]) hnone

theorem aset_entries {s : String} {v : Json} {f : List (String × Json)} :
    ∀ p ∈ aset s v f, p.1 = s → p.2 = v := by
  rw [aset]
  by_cases h : (alookup s f).isSome
  · rw [if_pos h]
    intro p hp hs
    rcases List.mem_map.mp hp with ⟨q, _, hq⟩
    by_cases hqs : q.1 = s
    · rw [if_pos hqs] at hq; rw [← hq]
    · rw [if_neg hqs] at hq; rw [← hq] at hs; exact absurd hs hqs
  · rw [if_neg h]
    intro p hp hs
    rcases List.mem_append.mp hp with hp | hp
    · exact absurd hs (alookup_none_notmem f (Option.not_isSome_iff_eq_none.mp h) p hp)
    · have : p = (s, v) := by simpa using hp
      rw [this]

theorem map_id_of_set_values {s : String} {v : Json} :
    ∀ g : List (String × Json), (∀ p ∈ g, p.1 = s → p.2 = v) →
      g.map (fun p => if p.1 = s then (s, v) else p) = g := by
  intro g
  induction g with
  | nil => intro _; rfl
  | cons q rest ih =>
    intro h
    rw [List.map_cons, ih (fun p hp => h p (List.mem_cons_of_mem q hp))]
    by_cases hq : q.1 = s
    · have hv : q.2 = v := h q (List.mem_cons_self q rest) hq
      rw [if_pos hq]
      have : (s, v) = q := Prod.ext hq.symm hv.symm
      rw [this]
    · rw [if_neg hq]

theorem aset_aset (s : String) (v : Json) (f : List (String × Json)) :
    aset s v (aset s v f) = aset s v f := by
  have h1 : (alookup s (aset s v f)).isSome = true := by
    rw [alookup_aset_self]; rfl
  conv_lhs => rw [aset]
  rw [if_pos h1]
  exact map_id_of_set_values (aset s v f) aset_entries

theorem alookup_filter_self (s : String) :
    ∀ f : List (String × Json), alookup s (f.filter (fun p => p.1 ≠ s)) = none := by
  intro f
  induction f with
  | nil => rfl
  | cons q rest ih =>
    rw [List.filter_cons]
    by_cases hq : q.1 = s
    · rw [if_neg (by simp [hq])]
      exact ih
    · rw [if_pos (by simp [hq])]
      rw [alookup, if_neg hq]
      exact ih

theorem alookup_filter_ne {k s : String} (hk : k ≠ s) :
    ∀ f : List (String × Json), alookup k (f.filter (fun p => p.1 ≠ s)) = alookup k f := by
  intro f
  induction f with
  | nil => rfl
  | cons q rest ih =>
    rw [List.filter_cons]
    by_cases hq : q.1 = s
    · have hqk : q.1 ≠ k := by rw [hq]; exact fun e => hk e.symm
      rw [if_neg (by simpa using hq)]
      rw [alookup, if_neg hqk]
      exact ih
    · rw [if_pos (by simpa using hq)]
      rw [alookup, alookup]
      by_cases hqk : q.1 = k
      · rw [if_pos hqk, if_pos hqk]
      · rw [if_neg hqk, if_neg hqk]
        exact ih

theorem padSet_get_self (v : Json) : ∀ (n : Nat) (es : List Json), (padSet es n v)[n]? = some v := by
  intro n
  induction n with
  | zero => intro es; cases es <;> simp [padSet]
  | succ m ih =>
    intro es
    cases es with
    | nil =>
      show (Json.null :: padSet [] m v)[m + 1]? = some v
      simpa using ih []
    | cons e rest =>
      show (e :: padSet rest m v)[m + 1]? = some v
      simpa using ih rest

theorem padSet_padSet (v : Json) : ∀ (n : Nat) (es : List Json),
    padSet (padSet es n v) n v = padSet es n v := by
  intro n
  induction n with
  | zero => intro es; cases es <;> rfl
  | succ m ih =>
    intro es
    cases es with
    | nil =>
      show padSet (Json.null :: padSet [] m v) (m + 1) v = Json.null :: padSet [] m v
      rw [padSet, ih []]
    | cons e rest =>
      show padSet (e :: padSet rest m v) (m + 1) v = e :: padSet rest m v
      rw [padSet, ih rest]

theorem padSet_nil (v : Json) : ∀ n : Nat, padSet [] n v = List.replicate n Json.null ++ [v] := by
  intro n
  induction n with
  | zero => rfl
  | succ m ih => rw [padSet, ih, List.replicate, List.cons_append]

/-! Single-step read/write lemmas for `getProp`/`setProp`. -/

theorem setProp_container {cur : Json} {seg : Seg} {x t : Json}
    (h : setProp cur seg x = some t) : isContainer t = true := by
  cases cur with
  | null => exact Option.noConfusion h
  | str s => exact Option.noConfusion h
  | obj f =>
    cases seg with
    | key s => rw [setProp, Option.some.injEq] at h; rw [← h]; rfl
    | idx n => rw [setProp, Option.some.injEq] at h; rw [← h]; rfl
  | arr es =>
    cases seg with
    | idx n => rw [setProp, Option.some.injEq] at h; rw [← h]; rfl
    | key s =>
      rcases hck : canonKey? s with _ | n
      · rw [setProp, hck] at h; exact Option.noConfusion h
      · simp only [setProp, hck, Option.some.injEq] at h
        rw [← h]; rfl

theorem setProp_getProp {cur : Json} {seg : Seg} {x t : Json}
    (h : setProp cur seg x = some t) : getProp t seg = some x := by
  cases cur with
  | null => exact Option.noConfusion h
  | str s => exact Option.noConfusion h
  | obj f =>
    cases seg with
    | key s =>
      rw [setProp, Option.some.injEq] at h
      rw [← h, getProp, alookup_aset_self]
    | idx n =>
      rw [setProp, Option.some.injEq] at h
      rw [← h, getProp, alookup_aset_self]
  | arr es =>
    cases seg with
    | idx n =>
      rw [setProp, Option.some.injEq] at h
      rw [← h, getProp, padSet_get_self]
    | key s =>
      rcases hck : canonKey? s with _ | n
      · rw [setProp, hck] at h; exact Option.noConfusion h
      · simp only [setProp, hck, Option.some.injEq] at h
        rw [← h]
        simp only [getProp, hck]
        rw [padSet_get_self]

theorem setProp_setProp {cur : Json} {seg : Seg} {x t : Json}
    (h : setProp cur seg x = some t) : setProp t seg x = some t := by
  cases cur with
  | null => exact Option.noConfusion h
  | str s => exact Option.noConfusion h
  | obj f =>
    cases seg with
    | key s =>
      rw [setProp, Option.some.injEq] at h
      rw [← h, setProp, aset_aset]
    | idx n =>
      rw [setProp, Option.some.injEq] at h
      rw [← h, setProp, aset_aset]
  | arr es =>
    cases seg with
    | idx n =>
      rw [setProp, Option.some.injEq] at h
      rw [← h, setProp, padSet_padSet]
    | key s =>
      rcases hck : canonKey? s with _ | n
      · rw [setProp, hck] at h; exact Option.noConfusion h
      · simp only [setProp, hck, Option.some.injEq] at h
        rw [← h]
        simp only [setProp, hck]
        rw [padSet_padSet]

theorem setProp_some_of_some {cur : Json} {seg : Seg} {x t : Json}
    (h : setProp cur seg x = some t) (y : Json) : ∃ u, setProp cur seg y = some u := by
  cases cur with
  | null => exact Option.noConfusion h
  | str s => exact Option.noConfusion h
  | obj f => cases seg with
    | key s => exact ⟨_, rfl⟩
    | idx n => exact ⟨_, rfl⟩
  | arr es =>
    cases seg with
    | idx n => exact ⟨_, rfl⟩
    | key s =>
      rcases hck : canonKey? s with _ | n
      · rw [setProp, hck] at h; exact Option.noConfusion h
      · exact ⟨Json.arr (padSet es n y), by simp only [setProp, hck]⟩

theorem getProp_set_of_container {cur : Json} {seg : Seg} {c : Json}
    (hc : isContainer cur = true) (hg : getProp cur seg = some c) (x : Json) :
    ∃ u, setProp cur seg x = some u ∧ getProp u seg = some x := by
  cases cur with
  | null => simp [isContainer] at hc
  | str s => simp [isContainer] at hc
  | obj f =>
    cases seg with
    | key s => exact ⟨_, rfl, by rw [getProp, alookup_aset_self]⟩
    | idx n => exact ⟨_, rfl, by rw [getProp, alookup_aset_self]⟩
  | arr es =>
    cases seg with
    | idx n => exact ⟨_, rfl, by rw [getProp, padSet_get_self]⟩
    | key s =>
      rcases hck : canonKey? s with _ | n
      · rw [getProp, hck] at hg; exact Option.noConfusion hg
      · refine ⟨Json.arr (padSet es n x), by simp only [setProp, hck], ?_⟩
        simp only [getProp, hck]
        rw [padSet_get_self]

theorem getProp_str {s : String} {seg : Seg} {c : Json}
    (h : getProp (Json.str s) seg = some c) : ∃ x, c = Json.str x := by
  cases seg with
  | idx n =>
    rw [getProp] at h
    rcases hd : s.data[n]? with _ | ch <;> rw [hd] at h
    · exact Option.noConfusion h
    · rw [Option.map_some', Option.some.injEq] at h
      exact ⟨_, h.symm⟩
  | key k =>
    rcases hck : canonKey? k with _ | n
    · rw [getProp, hck] at h; exact Option.noConfusion h
    · simp only [getProp, hck] at h
      rcases hd : s.data[n]? with _ | ch <;> rw [hd] at h
      · exact Option.noConfusion h
      · rw [Option.map_some', Option.some.injEq] at h
        exact ⟨_, h.symm⟩

theorem getProp_null {seg : Seg} : getProp Json.null seg = none := by
  cases seg <;> rfl

theorem getProp_emptyFor {seg : Seg} : getProp (emptyFor seg) seg = none := by
  cases seg with
  | key s => rfl
  | idx n => rw [emptyFor, getProp]; simp

theorem isContainer_emptyFor (seg : Seg) : isContainer (emptyFor seg) = true := by
  cases seg <;> rfl

theorem setProp_emptyFor_some (seg : Seg) (x : Json) :
    ∃ u, setProp (emptyFor seg) seg x = some u := by
  cases seg with
  | key s => exact ⟨_, rfl⟩
  | idx n => exact ⟨_, rfl⟩

theorem isContainer_not_null {c : Json} (h : isContainer c = true) : isNull c = false := by
  cases c with
  | null => simp [isContainer] at h
  | str s => rfl
  | obj f => rfl
  | arr es => rfl

theorem delFinal_container {cur : Json} {seg : Seg} {t : Json}
    (h : delFinal cur seg = some t) : isContainer cur = true := by
  cases cur with
  | null => exact Option.noConfusion h
  | str s => exact Option.noConfusion h
  | obj f => rfl
  | arr es => rfl

theorem getProp_none_delFinal {cur : Json} {seg : Seg}
    (h : getProp cur seg = none) : delFinal cur seg = none := by
  cases cur with
  | null => cases seg <;> rfl
  | str s => cases seg <;> rfl
  | obj f =>
    cases seg with
    | idx n => rfl
    | key s =>
      rw [getProp] at h
      rw [delFinal, h]
      rfl
  | arr es =>
    cases seg with
    | idx n =>
      rw [getProp] at h
      rw [delFinal, if_neg (by simpa [List.getElem?_eq_none_iff] using h)]
    | key s =>
      rcases hck : canonKey? s with _ | n
      · simp only [delFinal, hck]
      · simp only [getProp, hck] at h
        simp only [delFinal, hck]
        rw [if_neg (by simpa [List.getElem?_eq_none_iff] using h)]

/-! Inversion lemmas for the walk combinators. -/

theorem isNull_true {c : Json} (h : isNull c = true) : c = Json.null := by
  cases c with
  | null => rfl
  | str s => simp [isNull] at h
  | obj f => simp [isNull] at h
  | arr es => simp [isNull] at h

theorem reSet_ok {cur : Json} {seg : Seg} {r : WriteOut} {t : Json}
    (h : reSet cur seg r = WriteOut.ok t) :
    ∃ c', r = WriteOut.ok c' ∧ setProp cur seg c' = some t := by
  cases r with
  | ok c' =>
    rw [reSet] at h
    rcases hs : setProp cur seg c' with _ | u <;> simp only [hs] at h
    · exact WriteOut.noConfusion h
    · injection h with h
      subst h
      exact ⟨c', rfl, hs⟩
  | aborted => exact WriteOut.noConfusion h
  | threw => exact WriteOut.noConfusion h

theorem reSet_ok_of {cur : Json} {seg : Seg} {c' t : Json}
    (hs : setProp cur seg c' = some t) : reSet cur seg (WriteOut.ok c') = WriteOut.ok t := by
  rw [reSet]
  simp only [hs]

theorem createStep_ok {cur : Json} {seg nxt : Seg} {k : WriteOut} {t : Json}
    (h : createStep cur seg nxt k = WriteOut.ok t) :
    isContainer cur = true ∧ ∃ c', k = WriteOut.ok c' ∧ setProp cur seg c' = some t := by
  rw [createStep] at h
  cases hc : isContainer cur <;>
    simp only [hc, Bool.false_eq_true, if_false, if_true] at h
  · exact WriteOut.noConfusion h
  · rcases hw : setProp cur seg (emptyFor nxt) with _ | w <;> simp only [hw] at h
    · exact WriteOut.noConfusion h
    · exact ⟨rfl, reSet_ok h⟩

theorem createStep_not_ok_of_not_container {cur : Json} {seg nxt : Seg} {k : WriteOut}
    (hc : isContainer cur = false) (t : Json) :
    createStep cur seg nxt k ≠ WriteOut.ok t := by
  rw [createStep]
  simp only [hc, Bool.false_eq_true, if_false]
  exact fun h => WriteOut.noConfusion h

/-! String and null nodes can only lead the reader to strings / nowhere. -/

theorem resolve_str {c : Json} :
    ∀ (q : List Seg) (s : String), resolve (Json.str s) q = some c → ∃ x, c = Json.str x := by
  intro q
  induction q with
  | nil =>
    intro s h
    rw [resolve, Option.some.injEq] at h
    exact ⟨s, h.symm⟩
  | cons seg q' ih =>
    intro s h
    rw [resolve] at h
    rcases hg : getProp (Json.str s) seg with _ | c' <;> simp only [hg] at h
    · exact Option.noConfusion h
    · rcases getProp_str hg with ⟨x, rfl⟩
      exact ih x h

theorem resolve_null {q : List Seg} {c : Json}
    (h : resolve Json.null q = some c) : q = [] ∧ c = Json.null := by
  cases q with
  | nil =>
    rw [resolve, Option.some.injEq] at h
    exact ⟨rfl, h.symm⟩
  | cons seg q' =>
    rw [resolve] at h
    simp only [getProp_null] at h
    exact Option.noConfusion h

/-! Walk-level lemmas for the writer. -/

theorem goSet_not_ok_of_not_container :
    ∀ (path : List Seg) (cur : Json) (v : String) (t : Json),
      isContainer cur = false → goSet cur path v ≠ WriteOut.ok t := by
  intro path
  induction path with
  | nil => intro cur v t _ h; exact WriteOut.noConfusion h
  | cons seg rest ih =>
    intro cur v t hc h
    cases rest with
    | nil =>
      rw [goSet] at h
      simp only [hc, Bool.false_eq_true, if_false] at h
      exact WriteOut.noConfusion h
    | cons nxt rest' =>
      rw [goSet] at h
      rcases hg : getProp cur seg with _ | c <;> simp only [hg] at h
      · exact createStep_not_ok_of_not_container hc t h
      · cases cur with
        | obj f => simp [isContainer] at hc
        | arr es => simp [isContainer] at hc
        | null =>
          rw [getProp_null] at hg
          exact Option.noConfusion hg
        | str s =>
          rcases getProp_str hg with ⟨x, rfl⟩
          simp only [isNull, Bool.false_eq_true, if_false] at h
          rcases hr : goSet (Json.str x) (nxt :: rest') v with _ | _ | u <;>
            simp only [hr, reSet] at h
          · exact WriteOut.noConfusion h
          · exact WriteOut.noConfusion h
          · exact ih (Json.str x) v u rfl hr

theorem goSet_ok_container :
    ∀ (path : List Seg) (cur : Json) (v : String) (t : Json),
      goSet cur path v = WriteOut.ok t → isContainer t = true := by
  intro path
  induction path with
  | nil => intro cur v t h; exact WriteOut.noConfusion h
  | cons seg rest ih =>
    intro cur v t h
    cases rest with
    | nil =>
      rw [goSet] at h
      cases hc : isContainer cur <;>
        simp only [hc, Bool.false_eq_true, if_false, if_true] at h
      · exact WriteOut.noConfusion h
      · rcases hs : setProp cur seg (Json.str v) with _ | u <;> simp only [hs] at h
        · exact WriteOut.noConfusion h
        · injection h with h
          subst h
          exact setProp_container hs
    | cons nxt rest' =>
      rw [goSet] at h
      rcases hg : getProp cur seg with _ | c <;> simp only [hg] at h
      · rcases createStep_ok h with ⟨_, c', _, hs⟩
        exact setProp_container hs
      · cases hn : isNull c <;>
          simp only [hn, Bool.false_eq_true, if_false, if_true] at h
        · rcases reSet_ok h with ⟨c', _, hs⟩
          exact setProp_container hs
        · rcases createStep_ok h with ⟨_, c', _, hs⟩
          exact setProp_container hs

theorem goSet_resolve :
    ∀ (path : List Seg) (cur : Json) (v : String) (t : Json),
      goSet cur path v = WriteOut.ok t → resolve t path = some (Json.str v) := by
  intro path
  induction path with
  | nil => intro cur v t h; exact WriteOut.noConfusion h
  | cons seg rest ih =>
    intro cur v t h
    cases rest with
    | nil =>
      rw [goSet] at h
      cases hc : isContainer cur <;>
        simp only [hc, Bool.false_eq_true, if_false, if_true] at h
      · exact WriteOut.noConfusion h
      · rcases hs : setProp cur seg (Json.str v) with _ | u <;> simp only [hs] at h
        · exact WriteOut.noConfusion h
        · injection h with h
          subst h
          rw [resolve]
          simp only [setProp_getProp hs]
          rfl
    | cons nxt rest' =>
      rw [goSet] at h
      have finish : ∀ c₀ c' : Json, goSet c₀ (nxt :: rest') v = WriteOut.ok c' →
          setProp cur seg c' = some t → resolve t (seg :: nxt :: rest') = some (Json.str v) := by
        intro c₀ c' hok hs
        rw [resolve]
        simp only [setProp_getProp hs]
        exact ih c₀ v c' hok
      rcases hg : getProp cur seg with _ | c <;> simp only [hg] at h
      · rcases createStep_ok h with ⟨_, c', hok, hs⟩
        exact finish _ _ hok hs
      · cases hn : isNull c <;>
          simp only [hn, Bool.false_eq_true, if_false, if_true] at h
        · rcases reSet_ok h with ⟨c', hok, hs⟩
          exact finish _ _ hok hs
        · rcases createStep_ok h with ⟨_, c', hok, hs⟩
          exact finish _ _ hok hs

theorem goSet_idem :
    ∀ (path : List Seg) (cur : Json) (v : String) (t : Json),
      goSet cur path v = WriteOut.ok t → goSet t path v = WriteOut.ok t := by
  intro path
  induction path with
  | nil => intro cur v t h; exact WriteOut.noConfusion h
  | cons seg rest ih =>
    intro cur v t h
    cases rest with
    | nil =>
      rw [goSet] at h
      cases hc : isContainer cur <;>
        simp only [hc, Bool.false_eq_true, if_false, if_true] at h
      · exact WriteOut.noConfusion h
      · rcases hs : setProp cur seg (Json.str v) with _ | u <;> simp only [hs] at h
        · exact WriteOut.noConfusion h
        · injection h with h
          subst h
          rw [goSet]
          simp only [setProp_container hs, if_true]
          simp only [setProp_setProp hs]
    | cons nxt rest' =>
      rw [goSet] at h
      have finish : ∀ c₀ c' : Json, goSet c₀ (nxt :: rest') v = WriteOut.ok c' →
          setProp cur seg c' = some t → goSet t (seg :: nxt :: rest') v = WriteOut.ok t := by
        intro c₀ c' hok hs
        rw [goSet]
        simp only [setProp_getProp hs]
        simp only [isContainer_not_null (goSet_ok_container (nxt :: rest') c₀ v c' hok),
          Bool.false_eq_true, if_false]
        rw [ih c₀ v c' hok]
        exact reSet_ok_of (setProp_setProp hs)
      rcases hg : getProp cur seg with _ | c <;> simp only [hg] at h
      · rcases createStep_ok h with ⟨_, c', hok, hs⟩
        exact finish _ _ hok hs
      · cases hn : isNull c <;>
          simp only [hn, Bool.false_eq_true, if_false, if_true] at h
        · rcases reSet_ok h with ⟨c', hok, hs⟩
          exact finish _ _ hok hs
        · rcases createStep_ok h with ⟨_, c', hok, hs⟩
          exact finish _ _ hok hs

theorem goSet_abort_of_scalar_parent :
    ∀ (path : List Seg) (cur : Json) (v : String) (s0 : String),
      path ≠ [] → resolve cur path.dropLast = some (Json.str s0) →
      goSet cur path v = WriteOut.aborted := by
  intro path
  induction path with
  | nil => intro cur v s0 hne _; exact absurd rfl hne
  | cons seg rest ih =>
    intro cur v s0 _ hr
    cases rest with
    | nil =>
      rw [show ([seg] : List Seg).dropLast = [] from rfl, resolve, Option.some.injEq] at hr
      rw [goSet, hr]
      rw [show isContainer (Json.str s0) = false from rfl]
      simp only [Bool.false_eq_true, if_false]
    | cons nxt rest' =>
      rw [show (seg :: nxt :: rest').dropLast = seg :: (nxt :: rest').dropLast from rfl,
        resolve] at hr
      rcases hg : getProp cur seg with _ | c <;> simp only [hg] at hr
      · exact Option.noConfusion hr
      · have hn : isNull c = false := by
          cases hn : isNull c
          · rfl
          · rw [isNull_true hn] at hr
            rcases resolve_null hr with ⟨_, hc⟩
            exact Json.noConfusion hc
        rw [goSet]
        simp only [hg, hn, Bool.false_eq_true, if_false]
        rw [ih c v s0 (List.cons_ne_nil nxt rest') hr]
        rfl

theorem aset_nil (s : String) (v : Json) : aset s v [] = [(s, v)] := rfl

theorem setProp_emptyFor_chain (seg : Seg) (x : Json) :
    setProp (emptyFor seg) seg x =
      some (match seg with
            | Seg.key s => Json.obj [(s, x)]
            | Seg.idx n => Json.arr (List.replicate n Json.null ++ [x])) := by
  cases seg with
  | key s => rw [emptyFor, setProp, aset_nil]
  | idx n => rw [emptyFor, setProp, padSet_nil]

theorem goSet_fresh_chain :
    ∀ (rest : List Seg) (seg : Seg) (v : String),
      goSet (emptyFor seg) (seg :: rest) v = WriteOut.ok (chainV (seg :: rest) v) := by
  intro rest
  induction rest with
  | nil =>
    intro seg v
    rw [goSet]
    simp only [isContainer_emptyFor, if_true]
    rw [setProp_emptyFor_chain]
    cases seg with
    | key s => rw [chainV, chainV]
    | idx n => rw [chainV, chainV]
  | cons nxt rest' ih =>
    intro seg v
    rw [goSet]
    simp only [getProp_emptyFor]
    rw [createStep]
    simp only [isContainer_emptyFor, if_true]
    rcases setProp_emptyFor_some seg (emptyFor nxt) with ⟨w, hw⟩
    simp only [hw, ih nxt v, reSet, setProp_emptyFor_chain]
    cases seg with
    | key s => rw [chainV]
    | idx n => rw [chainV]

/-! Walk-level lemmas for the two deleters. -/

theorem delFinal_str (y : String) (seg : Seg) : delFinal (Json.str y) seg = none := by
  cases seg <;> rfl

theorem delFinal_null (seg : Seg) : delFinal Json.null seg = none := by
  cases seg <;> rfl

theorem append_single_ne_nil (pp : List Seg) (last : Seg) : pp ++ [last] ≠ [] := by
  simp

theorem goDel_spine :
    ∀ (pp : List Seg) (t sub : Json) (last : Seg) (sub' : Json),
      resolve t pp = some sub → delFinal sub last = some sub' →
      ∃ t', goDel t (pp ++ [last]) = some t' ∧ resolve t' pp = some sub' := by
  intro pp
  induction pp with
  | nil =>
    intro t sub last sub' hr hd
    rw [resolve, Option.some.injEq] at hr
    subst hr
    exact ⟨sub', by rw [List.nil_append, goDel]; exact hd, by rw [resolve]⟩
  | cons s pp' ih =>
    intro t sub last sub' hr hd
    rw [resolve] at hr
    rcases hg : getProp t s with _ | c <;> simp only [hg] at hr
    · exact Option.noConfusion hr
    · have htc : isContainer t = true := by
        cases t with
        | null => rw [getProp_null] at hg; exact Option.noConfusion hg
        | obj f => rfl
        | arr es => rfl
        | str z =>
          rcases getProp_str hg with ⟨x, rfl⟩
          rcases resolve_str pp' x hr with ⟨y, rfl⟩
          rw [delFinal_str] at hd
          exact Option.noConfusion hd
      rcases ih c sub last sub' hr hd with ⟨c', hdel, hres⟩
      rcases hq : pp' ++ [last] with _ | ⟨nxt, rest2⟩
      · exact absurd hq (append_single_ne_nil pp' last)
      · rw [hq] at hdel
        rcases getProp_set_of_container htc hg c' with ⟨u, hsu, hgu⟩
        refine ⟨u, ?_, ?_⟩
        · rw [List.cons_append, hq, goDel]
          simp only [htc, if_true, hg, hdel, reDel]
          exact hsu
        · rw [resolve]
          simp only [hgu]
          exact hres

theorem goDel4_spine :
    ∀ (pp : List Seg) (t sub : Json) (last : Seg) (sub' : Json),
      resolve t pp = some sub → delFinal sub last = some sub' →
      ∃ t', goDel4 t (pp ++ [last]) = some t' ∧ resolve t' pp = some sub' := by
  intro pp
  induction pp with
  | nil =>
    intro t sub last sub' hr hd
    rw [resolve, Option.some.injEq] at hr
    subst hr
    exact ⟨sub', by rw [List.nil_append, goDel4]; exact hd, by rw [resolve]⟩
  | cons s pp' ih =>
    intro t sub last sub' hr hd
    rw [resolve] at hr
    rcases hg : getProp t s with _ | c <;> simp only [hg] at hr
    · exact Option.noConfusion hr
    · have htc : isContainer t = true := by
        cases t with
        | null => rw [getProp_null] at hg; exact Option.noConfusion hg
        | obj f => rfl
        | arr es => rfl
        | str z =>
          rcases getProp_str hg with ⟨x, rfl⟩
          rcases resolve_str pp' x hr with ⟨y, rfl⟩
          rw [delFinal_str] at hd
          exact Option.noConfusion hd
      have hn : isNull c = false := by
        cases hn : isNull c
        · rfl
        · rw [isNull_true hn] at hr
          rcases resolve_null hr with ⟨_, rfl⟩
          rw [delFinal_null] at hd
          exact Option.noConfusion hd
      rcases ih c sub last sub' hr hd with ⟨c', hdel, hres⟩
      rcases hq : pp' ++ [last] with _ | ⟨nxt, rest2⟩
      · exact absurd hq (append_single_ne_nil pp' last)
      · rw [hq] at hdel
        rcases getProp_set_of_container htc hg c' with ⟨u, hsu, hgu⟩
        refine ⟨u, ?_, ?_⟩
        · rw [List.cons_append, hq, goDel4]
          simp only [hg, hn, Bool.false_eq_true, if_false, hdel, reDel]
          exact hsu
        · rw [resolve]
          simp only [hgu]
          exact hres

theorem goDel_none :
    ∀ (path : List Seg) (t : Json), path ≠ [] → resolve t path = none →
      goDel t path = none := by
  intro path
  induction path with
  | nil => intro t hne _; exact absurd rfl hne
  | cons seg rest ih =>
    intro t _ hr
    cases rest with
    | nil =>
      rw [resolve] at hr
      rcases hg : getProp t seg with _ | c <;> simp only [hg] at hr
      · rw [goDel]
        exact getProp_none_delFinal hg
      · rw [resolve] at hr
        exact Option.noConfusion hr
    | cons nxt rest' =>
      rw [resolve] at hr
      rcases hg : getProp t seg with _ | c <;> simp only [hg] at hr
      · rw [goDel]
        cases htc : isContainer t <;>
          simp only [htc, Bool.false_eq_true, if_false, if_true]
        simp only [hg]
      · rw [goDel]
        cases htc : isContainer t <;>
          simp only [htc, Bool.false_eq_true, if_false, if_true]
        simp only [hg]
        rw [ih c (List.cons_ne_nil nxt rest') hr]
        rfl

theorem goDel4_none :
    ∀ (path : List Seg) (t : Json), path ≠ [] → resolve t path = none →
      goDel4 t path = none := by
  intro path
  induction path with
  | nil => intro t hne _; exact absurd rfl hne
  | cons seg rest ih =>
    intro t _ hr
    cases rest with
    | nil =>
      rw [resolve] at hr
      rcases hg : getProp t seg with _ | c <;> simp only [hg] at hr
      · rw [goDel4]
        exact getProp_none_delFinal hg
      · rw [resolve] at hr
        exact Option.noConfusion hr
    | cons nxt rest' =>
      rw [resolve] at hr
      rcases hg : getProp t seg with _ | c <;> simp only [hg] at hr
      · rw [goDel4]
        simp only [hg]
      · rw [goDel4]
        simp only [hg]
        cases hn : isNull c <;>
          simp only [hn, Bool.false_eq_true, if_false, if_true]
        rw [ih c (List.cons_ne_nil nxt rest') hr]
        rfl

/-! The services-list index filter equals removal of one index. -/

theorem enumFrom_filter_small :
    ∀ (es : List Json) (m j : Nat), j < m →
      (List.enumFrom m es).filter (fun p => p.1 ≠ j) = List.enumFrom m es := by
  intro es
  induction es with
  | nil => intro m j _; rfl
  | cons e rest ih =>
    intro m j hj
    rw [show List.enumFrom m (e :: rest) = (m, e) :: List.enumFrom (m + 1) rest from rfl]
    rw [List.filter_cons, if_pos (by simp; omega)]
    rw [ih (m + 1) j (by omega)]

theorem enumFrom_map_snd :
    ∀ (es : List Json) (m : Nat), (List.enumFrom m es).map (fun p => p.2) = es := by
  intro es
  induction es with
  | nil => intro m; rfl
  | cons e rest ih =>
    intro m
    rw [show List.enumFrom m (e :: rest) = (m, e) :: List.enumFrom (m + 1) rest from rfl]
    rw [List.map_cons, ih (m + 1)]

theorem enumFrom_filter_drop :
    ∀ (es : List Json) (k i : Nat),
      ((List.enumFrom k es).filter (fun p => p.1 ≠ (k + i))).map (fun p => p.2) =
        es.take i ++ es.drop (i + 1) := by
  intro es
  induction es with
  | nil => intro k i; simp
  | cons e rest ih =>
    intro k i
    rw [show List.enumFrom k (e :: rest) = (k, e) :: List.enumFrom (k + 1) rest from rfl]
    rw [List.filter_cons]
    cases i with
    | zero =>
      simp only [Nat.add_zero]
      rw [if_neg (by simp)]
      rw [enumFrom_filter_small rest (k + 1) k (by omega)]
      rw [enumFrom_map_snd rest (k + 1)]
      simp
    | succ j =>
      rw [if_pos (by simp)]
      rw [List.map_cons]
      have harith : k + (j + 1) = (k + 1) + j := by omega
      rw [harith, ih (k + 1) j]
      simp [List.take, List.drop]

theorem servicesListDelete_eq (es : List Json) (i : Nat) :
    servicesListDelete es i = es.take i ++ es.drop (i + 1) := by
  rw [servicesListDelete]
  rw [show es.enum = List.enumFrom 0 es from rfl]
  have h := enumFrom_filter_drop es 0 i
  rw [Nat.zero_add] at h
  exact h

/-! Element-wise description of removing index `i`. -/

theorem eraseAt_get_lt {es : List Json} {i j : Nat} (hi : i < es.length) (hj : j < i) :
    (es.take i ++ es.drop (i + 1))[j]? = es[j]? := by
  rw [List.getElem?_append]
  rw [if_pos (by rw [List.length_take]; omega)]
  rw [List.getElem?_take, if_pos hj]

theorem eraseAt_get_ge {es : List Json} {i j : Nat} (hi : i < es.length) (hj : i ≤ j) :
    (es.take i ++ es.drop (i + 1))[j]? = es[j + 1]? := by
  rw [List.getElem?_append]
  rw [if_neg (by rw [List.length_take]; omega)]
  rw [List.getElem?_drop]
  rw [List.length_take]
  have harith : i + 1 + (j - i ⊓ es.length) = j + 1 := by
    rw [Nat.min_eq_left (Nat.le_of_lt hi)] at *
    omega
  rw [harith]

theorem eraseAt_length {es : List Json} {i : Nat} (hi : i < es.length) :
    (es.take i ++ es.drop (i + 1)).length + 1 = es.length := by
  rw [List.length_append, List.length_take, List.length_drop]
  omega

/-! The claims. -/

/-- C1 (counterexample): the non-terminal prefix ["a"] resolves to the
non-container string "hi", yet `updateNestedState` does not return the
original tree: the walk assigns a property on the primitive string (strict
mode) and throws (`none`), so the failure is not silent. -/
theorem claim1_counterexample :
    resolve (Json.obj [("a", Json.str "hi")]) [Seg.key "a"] = some (Json.str "hi") ∧
    isContainer (Json.str "hi") = false ∧
    updateNestedState (Json.obj [("a", Json.str "hi")])
      [Seg.key "a", Seg.key "b", Seg.key "c"] "x" = none :=
  ⟨rfl, rfl, rfl⟩

/-- C1 (amended): when the walk reaches the final segment's parent position
and that parent is a non-container string (the path's non-terminal prefix
resolves to a string), `updateNestedState` silently returns the original
tree unchanged; a non-container at an earlier position can instead raise a
TypeError. -/
theorem claim1_scalar_parent_silent_abort (t : Json) (path : List Seg) (v s0 : String)
    (hne : path ≠ []) (hr : resolve t path.dropLast = some (Json.str s0)) :
    updateNestedState t path v = some (false, t) := by
  cases path with
  | nil => exact absurd rfl hne
  | cons seg rest =>
    rw [updateNestedState]
    simp only [goSet_abort_of_scalar_parent (seg :: rest) t v s0 hne hr]

/-- C1 witness: setting below the string at tree.a aborts silently when the
string sits at the parent position. -/
theorem claim1_scalar_parent_silent_abort_witness :
    updateNestedState (Json.obj [("a", Json.str "hi")]) [Seg.key "a", Seg.key "b"] "x"
      = some (false, Json.obj [("a", Json.str "hi")]) :=
  claim1_scalar_parent_silent_abort (Json.obj [("a", Json.str "hi")])
    [Seg.key "a", Seg.key "b"] "x" "hi" (by simp) rfl

/-- C2 (counterexample): writing "x" at ["a","b"] in a tree where "a" holds
a string is silently dropped, so reading the result at the same path yields
nothing rather than "x". -/
theorem claim2_counterexample :
    updateNestedState (Json.obj [("a", Json.str "hi")]) [Seg.key "a", Seg.key "b"] "x"
      = some (false, Json.obj [("a", Json.str "hi")]) ∧
    resolve (Json.obj [("a", Json.str "hi")]) [Seg.key "a", Seg.key "b"] = none :=
  ⟨rfl, rfl⟩

/-- C2 (amended): whenever the writer succeeds (returns the fresh clone),
reading the result at the written path yields the written value. -/
theorem claim2_roundtrip_on_success (t : Json) (path : List Seg) (v : String) (t' : Json)
    (h : updateNestedState t path v = some (true, t')) :
    resolve t' path = some (Json.str v) := by
  cases path with
  | nil =>
    rw [updateNestedState, Option.some.injEq] at h
    exact absurd (congrArg Prod.fst h) (by simp)
  | cons seg rest =>
    rw [updateNestedState] at h
    rcases hw : goSet t (seg :: rest) v with _ | _ | u <;> simp only [hw] at h
    · exact Option.noConfusion h
    · rw [Option.some.injEq] at h
      exact absurd (congrArg Prod.fst h) (by simp)
    · rw [Option.some.injEq] at h
      have hu : u = t' := congrArg Prod.snd h
      subst hu
      exact goSet_resolve (seg :: rest) t v u hw

/-- C2 witness: a successful write at a fresh key reads back. -/
theorem claim2_roundtrip_witness :
    resolve (Json.obj [("a", Json.str "x")]) [Seg.key "a"] = some (Json.str "x") :=
  claim2_roundtrip_on_success (Json.obj []) [Seg.key "a"] "x"
    (Json.obj [("a", Json.str "x")]) rfl

/-- C3 (counterexample): on the empty path the writer returns the input
root itself (the `false` component models `return prevState`, the same
reference, with no clone made), so the output root is not always a distinct
object. -/
theorem claim3_counterexample :
    updateNestedState (Json.obj [("a", Json.str "x")]) [] "y"
      = some (false, Json.obj [("a", Json.str "x")]) := rfl

/-- C3 (amended): the writer never mutates its input: whenever it returns
the original reference (`fresh = false`: empty path or aborted walk) the
returned tree is exactly the input, so no partial write ever escapes; a
referentially distinct root is returned exactly in the `fresh = true`
cases, where the deep clone is returned. -/
theorem claim3_no_mutation (t : Json) (path : List Seg) (v : String) (fr : Bool) (t' : Json)
    (h : updateNestedState t path v = some (fr, t')) (hf : fr = false) : t' = t := by
  cases path with
  | nil =>
    rw [updateNestedState, Option.some.injEq] at h
    exact (congrArg Prod.snd h).symm
  | cons seg rest =>
    rw [updateNestedState] at h
    rcases hw : goSet t (seg :: rest) v with _ | _ | u <;> simp only [hw] at h
    · exact Option.noConfusion h
    · rw [Option.some.injEq] at h
      exact (congrArg Prod.snd h).symm
    · rw [Option.some.injEq] at h
      have : true = fr := congrArg Prod.fst h
      rw [hf] at this
      exact absurd this (by simp)

/-- C3 witness: an aborted write returns the input tree itself. -/
theorem claim3_no_mutation_witness :
    Json.obj [("a", Json.str "hi")] = Json.obj [("a", Json.str "hi")] :=
  claim3_no_mutation (Json.obj [("a", Json.str "hi")]) [Seg.key "a", Seg.key "b"] "x"
    false (Json.obj [("a", Json.str "hi")]) rfl rfl

/-- C4: when the first path segment is absent from (or null in) the object
root, the writer succeeds and hangs the fully vivified chain below that
slot: one container per remaining segment — an empty array when the
segment indexing it is numeric, an empty object otherwise — with the scalar
at the final segment. -/
theorem claim4_vivifies_missing_intermediates (f : List (String × Json)) (seg : Seg)
    (rest : List Seg) (v : String)
    (h : getProp (Json.obj f) seg = none ∨ getProp (Json.obj f) seg = some Json.null) :
    updateNestedState (Json.obj f) (seg :: rest) v
      = some (true, Json.obj (aset (keyOf seg) (chainV rest v) f)) := by
  cases rest with
  | nil =>
    have hgo : goSet (Json.obj f) [seg] v
        = WriteOut.ok (Json.obj (aset (keyOf seg) (chainV [] v) f)) := by
      rw [goSet]
      simp only [show isContainer (Json.obj f) = true from rfl, if_true]
      cases seg with
      | key s => rw [setProp, keyOf, chainV]
      | idx n => rw [setProp, keyOf, chainV]
    rw [updateNestedState]
    simp only [hgo]
  | cons nxt rest' =>
    have hgo : goSet (Json.obj f) (seg :: nxt :: rest') v
        = createStep (Json.obj f) seg nxt (goSet (emptyFor nxt) (nxt :: rest') v) := by
      rw [goSet]
      rcases h with hg | hg
      · simp only [hg]
      · simp only [hg, isNull, if_true]
    have hcs : createStep (Json.obj f) seg nxt (goSet (emptyFor nxt) (nxt :: rest') v)
        = WriteOut.ok (Json.obj (aset (keyOf seg) (chainV (nxt :: rest') v) f)) := by
      rw [goSet_fresh_chain rest' nxt v, createStep]
      simp only [show isContainer (Json.obj f) = true from rfl, if_true]
      have hset : ∀ x : Json, setProp (Json.obj f) seg x
          = some (Json.obj (aset (keyOf seg) x f)) := by
        intro x
        cases seg with
        | key s => rw [setProp, keyOf]
        | idx n => rw [setProp, keyOf]
      simp only [hset, reSet]
    rw [updateNestedState]
    simp only [hgo, hcs]

/-- C4 witness: writing at ["a", 1, "b"] in the empty root creates an array
below "a" with a padding hole and an object below index 1. -/
theorem claim4_vivifies_missing_intermediates_witness :
    updateNestedState (Json.obj []) [Seg.key "a", Seg.idx 1, Seg.key "b"] "x"
      = some (true, Json.obj (aset (keyOf (Seg.key "a"))
          (chainV [Seg.idx 1, Seg.key "b"] "x") [])) :=
  claim4_vivifies_missing_intermediates [] (Seg.key "a") [Seg.idx 1, Seg.key "b"] "x"
    (Or.inl rfl)

/-- C5: the writer is idempotent: re-running it with the same path and
value on its own output (including the returned-original cases) reproduces
that output exactly. -/
theorem claim5_idempotent (t : Json) (path : List Seg) (v : String) (r : Bool × Json)
    (h : updateNestedState t path v = some r) :
    updateNestedState r.2 path v = some r := by
  cases path with
  | nil =>
    rw [updateNestedState, Option.some.injEq] at h
    rw [← h, updateNestedState]
  | cons seg rest =>
    rw [updateNestedState] at h
    rcases hw : goSet t (seg :: rest) v with _ | _ | u <;> simp only [hw] at h
    · exact Option.noConfusion h
    · rw [Option.some.injEq] at h
      rw [← h, updateNestedState]
      simp only [hw]
    · rw [Option.some.injEq] at h
      rw [← h, updateNestedState]
      simp only [goSet_idem (seg :: rest) t v u hw]

/-- C5 witness: repeating the write that created tree.a = "x" leaves the
tree unchanged. -/
theorem claim5_idempotent_witness :
    updateNestedState (Json.obj [("a", Json.str "x")]) [Seg.key "a"] "x"
      = some (true, Json.obj [("a", Json.str "x")]) :=
  claim5_idempotent (Json.obj []) [Seg.key "a"] "x"
    (true, Json.obj [("a", Json.str "x")]) rfl

/-- C6: deleting in-bounds index i of an array at path pp (part_005's
splice-based deleter) succeeds and leaves at pp the array with index i
removed: one element shorter, elements before i unchanged, elements after
i shifted down one position; and the services-list rewrite (the
AdminDashboard filter) computes exactly the same removal. -/
theorem claim6_array_delete_shifts (t : Json) (pp : List Seg) (es : List Json) (i : Nat)
    (hr : resolve t pp = some (Json.arr es)) (hi : i < es.length) :
    (∃ t', handleDeleteItem t (pp ++ [Seg.idx i]) = (true, t') ∧
      resolve t' pp = some (Json.arr (es.take i ++ es.drop (i + 1)))) ∧
    servicesListDelete es i = es.take i ++ es.drop (i + 1) ∧
    (es.take i ++ es.drop (i + 1)).length + 1 = es.length ∧
    (∀ j, j < i → (es.take i ++ es.drop (i + 1))[j]? = es[j]?) ∧
    (∀ j, i ≤ j → (es.take i ++ es.drop (i + 1))[j]? = es[j + 1]?) := by
  have hd : delFinal (Json.arr es) (Seg.idx i)
      = some (Json.arr (es.take i ++ es.drop (i + 1))) := by
    rw [delFinal, if_pos hi]
  rcases goDel_spine pp t (Json.arr es) (Seg.idx i)
      (Json.arr (es.take i ++ es.drop (i + 1))) hr hd with ⟨t', hdel, hres⟩
  refine ⟨⟨t', ?_, hres⟩, servicesListDelete_eq es i, eraseAt_length hi,
    fun j hj => eraseAt_get_lt hi hj, fun j hj => eraseAt_get_ge hi hj⟩
  rcases hq : pp ++ [Seg.idx i] with _ | ⟨p0, ps⟩
  · exact absurd hq (append_single_ne_nil pp (Seg.idx i))
  · rw [hq] at hdel
    rw [handleDeleteItem]
    simp only [hdel]

/-- C6 witness: deleting index 1 of the three-element list under "l". -/
theorem claim6_array_delete_shifts_witness :
    (∃ t', handleDeleteItem (Json.obj [("l", Json.arr [Json.str "a", Json.str "b", Json.str "c"])])
        ([Seg.key "l"] ++ [Seg.idx 1]) = (true, t') ∧
      resolve t' [Seg.key "l"] = some (Json.arr
        ([Json.str "a", Json.str "b", Json.str "c"].take 1 ++
          [Json.str "a", Json.str "b", Json.str "c"].drop 2))) ∧
    servicesListDelete [Json.str "a", Json.str "b", Json.str "c"] 1 =
      [Json.str "a", Json.str "b", Json.str "c"].take 1 ++
        [Json.str "a", Json.str "b", Json.str "c"].drop 2 ∧
    ([Json.str "a", Json.str "b", Json.str "c"].take 1 ++
        [Json.str "a", Json.str "b", Json.str "c"].drop 2).length + 1 = 3 ∧
    (∀ j, j < 1 → ([Json.str "a", Json.str "b", Json.str "c"].take 1 ++
        [Json.str "a", Json.str "b", Json.str "c"].drop 2)[j]? =
        [Json.str "a", Json.str "b", Json.str "c"][j]?) ∧
    (∀ j, 1 ≤ j → ([Json.str "a", Json.str "b", Json.str "c"].take 1 ++
        [Json.str "a", Json.str "b", Json.str "c"].drop 2)[j]? =
        [Json.str "a", Json.str "b", Json.str "c"][j + 1]?) :=
  claim6_array_delete_shifts
    (Json.obj [("l", Json.arr [Json.str "a", Json.str "b", Json.str "c"])])
    [Seg.key "l"] [Json.str "a", Json.str "b", Json.str "c"] 1 rfl (by decide)

/-- C7 (counterexample): the part_004 deleter rejects single-segment paths
(length < 2), so deleting the present key "k" of the root mapping leaves
the tree unchanged — "k" is still present afterwards — falsifying the claim
for that implementation. -/
theorem claim7_counterexample :
    handleDeleteItem4 (Json.obj [("k", Json.str "x")]) [Seg.key "k"]
      = (false, Json.obj [("k", Json.str "x")]) ∧
    resolve ((handleDeleteItem4 (Json.obj [("k", Json.str "x")]) [Seg.key "k"]).2)
      [Seg.key "k"] = some (Json.str "x") :=
  ⟨rfl, rfl⟩

/-- C7 (amended): deleting a present key k of a mapping at path pp removes
exactly that key and preserves every sibling key's value — for the part_005
deleter on every path, and for the part_004 deleter on every path of length
at least 2 (non-empty pp), since part_004 rejects shorter paths. -/
theorem claim7_key_delete_exact (t : Json) (pp : List Seg) (f : List (String × Json))
    (k : String) (w : Json)
    (hr : resolve t pp = some (Json.obj f)) (hk : alookup k f = some w) :
    (∃ t', handleDeleteItem t (pp ++ [Seg.key k]) = (true, t') ∧
      resolve t' pp = some (Json.obj (f.filter (fun p => p.1 ≠ k))) ∧
      alookup k (f.filter (fun p => p.1 ≠ k)) = none ∧
      (∀ k', k' ≠ k → alookup k' (f.filter (fun p => p.1 ≠ k)) = alookup k' f)) ∧
    (pp ≠ [] → ∃ t'', handleDeleteItem4 t (pp ++ [Seg.key k]) = (true, t'') ∧
      resolve t'' pp = some (Json.obj (f.filter (fun p => p.1 ≠ k)))) := by
  have hd : delFinal (Json.obj f) (Seg.key k)
      = some (Json.obj (f.filter (fun p => p.1 ≠ k))) := by
    rw [delFinal, if_pos (by rw [hk]; rfl)]
  constructor
  · rcases goDel_spine pp t (Json.obj f) (Seg.key k)
        (Json.obj (f.filter (fun p => p.1 ≠ k))) hr hd with ⟨t', hdel, hres⟩
    refine ⟨t', ?_, hres, alookup_filter_self k f, fun k' hk' => alookup_filter_ne hk' f⟩
    rcases hq : pp ++ [Seg.key k] with _ | ⟨p0, ps⟩
    · exact absurd hq (append_single_ne_nil pp (Seg.key k))
    · rw [hq] at hdel
      rw [handleDeleteItem]
      simp only [hdel]
  · intro hne
    rcases goDel4_spine pp t (Json.obj f) (Seg.key k)
        (Json.obj (f.filter (fun p => p.1 ≠ k))) hr hd with ⟨t'', hdel4, hres4⟩
    refine ⟨t'', ?_, hres4⟩
    have hlen : ¬ (pp ++ [Seg.key k]).length < 2 := by
      rcases pp with _ | ⟨q, qs⟩
      · exact absurd rfl hne
      · simp [List.length_append]
    rw [handleDeleteItem4, if_neg hlen]
    simp only [hdel4]

/-- C7 witness: deleting "k" inside the mapping at "m" removes it and keeps
the sibling "s" in both deleters. -/
theorem claim7_key_delete_exact_witness :
    (∃ t', handleDeleteItem
        (Json.obj [("m", Json.obj [("k", Json.str "1"), ("s", Json.str "2")])])
        ([Seg.key "m"] ++ [Seg.key "k"]) = (true, t') ∧
      resolve t' [Seg.key "m"] = some (Json.obj
        ([("k", Json.str "1"), ("s", Json.str "2")].filter (fun p => p.1 ≠ "k"))) ∧
      alookup "k" ([("k", Json.str "1"), ("s", Json.str "2")].filter (fun p => p.1 ≠ "k"))
        = none ∧
      (∀ k', k' ≠ "k" →
        alookup k' ([("k", Json.str "1"), ("s", Json.str "2")].filter (fun p => p.1 ≠ "k"))
          = alookup k' [("k", Json.str "1"), ("s", Json.str "2")])) ∧
    (([Seg.key "m"] : List Seg) ≠ [] → ∃ t'', handleDeleteItem4
        (Json.obj [("m", Json.obj [("k", Json.str "1"), ("s", Json.str "2")])])
        ([Seg.key "m"] ++ [Seg.key "k"]) = (true, t'') ∧
      resolve t'' [Seg.key "m"] = some (Json.obj
        ([("k", Json.str "1"), ("s", Json.str "2")].filter (fun p => p.1 ≠ "k")))) :=
  claim7_key_delete_exact
    (Json.obj [("m", Json.obj [("k", Json.str "1"), ("s", Json.str "2")])])
    [Seg.key "m"] [("k", Json.str "1"), ("s", Json.str "2")] "k" (Json.str "1") rfl rfl

/-- C8: on a path that does not resolve in the tree (missing intermediate,
out-of-bounds index, or absent final key all make `resolve` return none),
both deleters return the original tree unchanged. -/
theorem claim8_notfound_returns_original (t : Json) (path : List Seg)
    (hr : resolve t path = none) :
    handleDeleteItem t path = (false, t) ∧ handleDeleteItem4 t path = (false, t) := by
  have hne : path ≠ [] := by
    intro h0
    rw [h0, resolve] at hr
    exact Option.noConfusion hr
  constructor
  · rcases hp : path with _ | ⟨p0, ps⟩
    · exact absurd hp hne
    · rw [hp] at hr
      rw [handleDeleteItem]
      simp only [goDel_none (p0 :: ps) t (List.cons_ne_nil p0 ps) hr]
  · rw [handleDeleteItem4]
    by_cases hlen : path.length < 2
    · rw [if_pos hlen]
    · rw [if_neg hlen]
      simp only [goDel4_none path t hne hr]

/-- C8 witness: deleting the absent key "z" of the empty root is a no-op in
both deleters. -/
theorem claim8_notfound_returns_original_witness :
    handleDeleteItem (Json.obj []) [Seg.key "z"] = (false, Json.obj []) ∧
    handleDeleteItem4 (Json.obj []) [Seg.key "z"] = (false, Json.obj []) :=
  claim8_notfound_returns_original (Json.obj []) [Seg.key "z"] rfl

/-- C9: the contact form attempts a send exactly when the email matches the
validation regex, the message length lies in [10, 1000], and at least
60000 ms have elapsed since the last accepted submission. -/
theorem claim9_send_gate (now last : Nat) (email message : String) :
    (handleSubmit now last email message).1 = true ↔
      (validateEmail email = true ∧ 10 ≤ message.length ∧ message.length ≤ 1000 ∧
        60000 ≤ now - last) := by
  rw [handleSubmit]
  split_ifs with h1 h2 h3
  · simp only [Bool.false_eq_true, false_iff]
    rintro ⟨-, -, -, hge⟩
    omega
  · simp only [Bool.not_eq_true'] at h2
    simp only [Bool.false_eq_true, false_iff]
    rintro ⟨he, -⟩
    rw [he] at h2
    exact Bool.noConfusion h2
  · simp only [Bool.not_eq_true'] at h3
    simp [validateMessage] at h3
    simp only [Bool.false_eq_true, false_iff]
    rintro ⟨-, hm1, hm2, -⟩
    omega
  · simp only [Bool.not_eq_true'] at h2 h3
    simp only [Bool.not_eq_false] at h2 h3
    simp [validateMessage] at h3
    simp only [true_iff]
    exact ⟨h2, h3.1, h3.2, by omega⟩

/-- C10: on the empty path the writer returns the input tree itself at
once: no clone is made and nothing is written (the `false` component
records that `prevState`, the input reference, is returned). -/
theorem claim10_empty_path_identity (t : Json) (v : String) :
    updateNestedState t [] v = some (false, t) := by
  rw [updateNestedState]

end PortfolioSpec
